import Mathlib

/-!
Verification of the pygmmis GMM fitting engine (`pygmmis.py`).

The Python source is shallowly embedded over the exact rationals:
numpy arrays become functions out of `Fin n`; the external numerical
kernels (`np.linalg.svd`, the `scipy.stats` chi-square quantiles,
fractional powers, the Gaussian sampler of `np.random`) are passed in as
explicit oracle parameters; and the per-sample densities that the code
keeps in the log domain are carried in the linear domain (exp is a
monotone bijection onto the positives and exp/log cancel, so index sets,
filters, responsibilities and the control flow are unchanged).
-/

namespace Pygmmis

/-- Dot product of two rational vectors. -/
def dotQ {n : Nat} (x y : Fin n → ℚ) : ℚ := ∑ i, x i * y i

/-- Matrix-vector product. -/
def mulVecQ {n : Nat} (A : Fin n → Fin n → ℚ) (x : Fin n → ℚ) : Fin n → ℚ :=
  fun i => dotQ (A i) x

/-- The quadratic form xᵀ A x, i.e. the source's
`np.einsum('...i,...ij,...j', dx, A, dx)` calls. -/
def quadFormQ {n : Nat} (A : Fin n → Fin n → ℚ) (x : Fin n → ℚ) : ℚ :=
  dotQ x (mulVecQ A x)

/-- Minor of a square matrix: delete row `i` and column `j`. -/
def minorQ {n : Nat} (A : Fin (n+1) → Fin (n+1) → ℚ) (i j : Fin (n+1)) :
    Fin n → Fin n → ℚ :=
  fun r c => A (i.succAbove r) (j.succAbove c)

/-- Determinant by Laplace expansion along the first row; models
`np.linalg.det`. -/
def detQ : {n : Nat} → (Fin n → Fin n → ℚ) → ℚ
  | 0, _ => 1
  | n+1, A => ∑ j : Fin (n+1), (-1 : ℚ) ^ (j : Nat) * A 0 j * detQ (minorQ A 0 j)

/-- Adjugate (transposed cofactor) matrix. -/
def adjQ : {n : Nat} → (Fin n → Fin n → ℚ) → Fin n → Fin n → ℚ
  | 0, _ => fun i _ => i.elim0
  | _+1, A => fun i j => (-1 : ℚ) ^ ((i : Nat) + (j : Nat)) * detQ (minorQ A j i)

/-- Matrix inverse by the adjugate formula; models `np.linalg.inv`. -/
def invQ {n : Nat} (A : Fin n → Fin n → ℚ) : Fin n → Fin n → ℚ :=
  fun i j => (detQ A)⁻¹ * adjQ A i j

/-- The mixture model state: class `GMM` of the source, holding the
`amp` (K), `mean` (K,D) and `covar` (K,D,D) arrays. -/
structure Gmm (K D : Nat) where
  amp : Fin K → ℚ
  mean : Fin K → Fin D → ℚ
  covar : Fin K → Fin D → Fin D → ℚ
deriving DecidableEq

/-- The amplitude assignment of `_update` before the final
renormalization.  For a full update (`altered is None`) it is
`gmm.amp[changed] = (A + A2)[changed] / (N + N2)`; for a partial
(split-and-merge) update it is the constrained Bovy eq. 31 form
`gmm.amp[altered] = (A+A2)[altered] / (A+A2)[altered].sum()
  * (1 - gmm.amp[unaltered].sum())`, the unaltered entries keeping their
previous value. -/
def updateAmpRaw {K : Nat} (amp A A2 : Fin K → ℚ) (N N2 : ℚ)
    (altered : Option (Fin K → Bool)) : Fin K → ℚ :=
  match altered with
  | none => fun k => (A k + A2 k) / (N + N2)
  | some alt => fun k =>
      if alt k then
        (A k + A2 k) / (∑ j, if alt j then A j + A2 j else 0)
          * (1 - ∑ j, if alt j then 0 else amp j)
      else amp k

/-- The final explicit renormalization `gmm.amp /= gmm.amp.sum()` of
`_update` applied on top of `updateAmpRaw`. -/
def updateAmp {K : Nat} (amp A A2 : Fin K → ℚ) (N N2 : ℚ)
    (altered : Option (Fin K → Bool)) : Fin K → ℚ :=
  fun k => updateAmpRaw amp A A2 N N2 altered k /
    ∑ j, updateAmpRaw amp A A2 N N2 altered j

/-- C1: After the parameter update performed by `_update`, the
mixture amplitude vector has non-negative entries and sums to exactly 1,
in either update mode.  The hypotheses are the facts the EM pipeline
guarantees at every completed iteration: the sufficient statistics
`A`, `A2` are sums of exponentials (hence non-negative), the entry
amplitudes are a valid distribution, the effective sample count `N + N2`
is positive, and the accumulated amplitude mass before the explicit
renormalization is positive. -/
theorem update_amp_nonneg_sum_one {K : Nat} (amp A A2 : Fin K → ℚ) (N N2 : ℚ)
    (altered : Option (Fin K → Bool))
    (hA : ∀ k, 0 ≤ A k) (hA2 : ∀ k, 0 ≤ A2 k)
    (hamp : ∀ k, 0 ≤ amp k) (hsum : ∑ k, amp k = 1)
    (hN : 0 < N + N2)
    (hpos : 0 < ∑ k, updateAmpRaw amp A A2 N N2 altered k) :
    (∀ k, 0 ≤ updateAmp amp A A2 N N2 altered k) ∧
      ∑ k, updateAmp amp A A2 N N2 altered k = 1 := by
  have hraw : ∀ k, 0 ≤ updateAmpRaw amp A A2 N N2 altered k := by
    intro k
    cases altered with
    | none => exact div_nonneg (add_nonneg (hA k) (hA2 k)) hN.le
    | some alt =>
      simp only [updateAmpRaw]
      by_cases h : alt k
      · simp only [h, if_true]
        apply mul_nonneg
        · apply div_nonneg (add_nonneg (hA k) (hA2 k))
          apply Finset.sum_nonneg
          intro j _
          by_cases hj : alt j
          · simpa [hj] using add_nonneg (hA j) (hA2 j)
          · simp [hj]
        · have hle : (∑ j, if alt j then 0 else amp j) ≤ ∑ j, amp j := by
            apply Finset.sum_le_sum
            intro j _
            by_cases hj : alt j
            · simpa [hj] using hamp j
            · simp [hj]
          rw [hsum] at hle
          linarith
      · simpa [h] using hamp k
  constructor
  · intro k
    exact div_nonneg (hraw k) hpos.le
  · simp only [updateAmp]
    rw [← Finset.sum_div]
    exact div_self (ne_of_gt hpos)

/-- Witness for C1 at a concrete input: K = 2, full-update mode,
observed statistics A = (3, 1), no imputation, N = 4. -/
theorem update_amp_nonneg_sum_one_witness :
    ((0:ℚ) < ∑ k : Fin 2, updateAmpRaw ![1/2, 1/2] ![3, 1] ![0, 0] 4 0 none k) ∧
      (∀ k, 0 ≤ updateAmp ![1/2, 1/2] ![3, 1] ![0, 0] 4 0 none k) ∧
      ∑ k, updateAmp ![1/2, 1/2] ![3, 1] ![0, 0] 4 0 none k = 1 :=
  ⟨by norm_num [updateAmpRaw, Fin.sum_univ_two],
    update_amp_nonneg_sum_one ![1/2, 1/2] ![3, 1] ![0, 0] 4 0 none
      (by intro k; fin_cases k <;> norm_num)
      (by intro k; fin_cases k <;> norm_num)
      (by intro k; fin_cases k <;> norm_num)
      (by norm_num [Fin.sum_univ_two])
      (by norm_num)
      (by norm_num [updateAmpRaw, Fin.sum_univ_two])⟩

/-- The candidate sample set of `_Esum`: the component's existing
neighborhood `U_k`, or all `Ndata` sample indices when `U_k is None`. -/
def esumCandidates (U_k : Option (List Nat)) (Ndata : Nat) : List Nat :=
  match U_k with
  | none => List.range Ndata
  | some u => u

/-- The per-candidate total covariance inverse of `_Esum`:
`np.linalg.inv(gmm.covar[k])` without per-sample noise, and
`np.linalg.inv(gmm.covar[k] + covar_i)` with it.  The numpy shape test
distinguishing one-for-all from per-sample noise collapses to an
index-dependent noise function. -/
def esumTinv {K D : Nat} (g : Gmm K D) (k : Fin K)
    (noise : Option (Nat → Fin D → Fin D → ℚ)) (i : Nat) : Fin D → Fin D → ℚ :=
  match noise with
  | none => invQ (g.covar k)
  | some c => invQ (fun a b => g.covar k a b + c i a b)

/-- The squared Mahalanobis distance `chi2` of sample `i` to component
`k`'s mean computed by `_Esum` via `np.einsum('...i,...ij,...j', dx, T_inv, dx)`. -/
def esumChi2 {K D : Nat} (g : Gmm K D) (k : Fin K) (data : Nat → Fin D → ℚ)
    (noise : Option (Nat → Fin D → Fin D → ℚ)) (i : Nat) : ℚ :=
  quadFormQ (esumTinv g k noise i) (fun d => data i d - g.mean k d)

/-- The neighborhood returned by `_Esum`: all candidates when no cutoff
is configured; with a cutoff, `indices = chi2 < cutoff` retains exactly
the candidates with `chi2` strictly below the cutoff
(`np.flatnonzero(indices)` resp. `U_k[indices]`, both of which are the
order-preserving filter of the candidate list). -/
def esumU {K D : Nat} (g : Gmm K D) (k : Fin K) (data : Nat → Fin D → ℚ)
    (noise : Option (Nat → Fin D → Fin D → ℚ)) (U_k : Option (List Nat))
    (Ndata : Nat) (cutoff : Option ℚ) : List Nat :=
  match cutoff with
  | none => esumCandidates U_k Ndata
  | some c => (esumCandidates U_k Ndata).filter
      (fun i => esumChi2 g k data noise i < c)

/-- C3: With a truncation cutoff configured, the E-step retains a
candidate sample in component `k`'s neighborhood iff its squared
Mahalanobis distance to the component mean — under the inverse of the
component covariance, plus the per-sample noise covariance when noise is
present — is strictly below the cutoff; every candidate at or above the
cutoff is excluded. -/
theorem esum_truncation_iff {K D : Nat} (g : Gmm K D) (k : Fin K)
    (data : Nat → Fin D → ℚ) (noise : Option (Nat → Fin D → Fin D → ℚ))
    (U_k : Option (List Nat)) (Ndata : Nat) (c : ℚ) (i : Nat) :
    i ∈ esumU g k data noise U_k Ndata (some c) ↔
      i ∈ esumCandidates U_k Ndata ∧
        quadFormQ (esumTinv g k noise i) (fun d => data i d - g.mean k d) < c := by
  simp [esumU, esumChi2, List.mem_filter]

/-- Matrix product. -/
def matMulQ {n : Nat} (A B : Fin n → Fin n → ℚ) : Fin n → Fin n → ℚ :=
  fun i j => ∑ l, A i l * B l j

/-- Model of `_Msums`: the per-component sufficient statistics (A_k, M_k, C_k).
`p_k` is the linear-domain value of the per-neighborhood `log_p[k]`
densities (the in-place `log_p_k -= log_S[U_k]` followed by `np.exp`
makes the responsibilities `q_i = p_i / S(U_k[i])`), `Tinv` the optional
per-sample total covariance inverse from the E-step.  When the
neighborhood is empty (`log_p_k.size == 0`) the source returns the
triple `0, 0, 0` without touching the data. -/
def msums {K D : Nat} (g : Gmm K D) (k : Fin K) (U_k : List Nat) (p_k : List ℚ)
    (Tinv : Option (Nat → Fin D → Fin D → ℚ)) (S : Nat → ℚ)
    (data : Nat → Fin D → ℚ) : ℚ × (Fin D → ℚ) × (Fin D → Fin D → ℚ) :=
  if p_k.length = 0 then (0, fun _ => 0, fun _ _ => 0)
  else
    let q := List.zipWith (fun p i => p / S i) p_k U_k
    let A_k := q.sum
    match Tinv with
    | none =>
      let M_k := fun d => (List.zipWith (fun qi i => qi * data i d) q U_k).sum
      let C_k := fun a b => (List.zipWith
        (fun qi i => qi * (data i a - g.mean k a) * (data i b - g.mean k b)) q U_k).sum
      (A_k, M_k, C_k)
    | some T =>
      let b := fun (i : Nat) (d : Fin D) => g.mean k d +
        mulVecQ (g.covar k) (mulVecQ (T i) (fun e => data i e - g.mean k e)) d
      let M_k := fun d => (List.zipWith (fun qi i => qi * b i d) q U_k).sum
      let B := fun (i : Nat) (a b' : Fin D) => g.covar k a b' -
        matMulQ (matMulQ (g.covar k) (T i)) (g.covar k) a b'
      let C_k := fun a b' => (List.zipWith
        (fun qi i => qi * ((b i a - g.mean k a) * (b i b' - g.mean k b') + B i a b')) q U_k).sum
      (A_k, M_k, C_k)

/-- Which components `_update` writes: the `changed` slice is all
components for a full update, only the altered ones for a partial one. -/
def updateChanged {K : Nat} (altered : Option (Fin K → Bool)) (k : Fin K) : Bool :=
  match altered with
  | none => true
  | some alt => alt k

/-- The mean assignment of `_update`:
`gmm.mean[changed,:] = (M + M2)[changed,:] / (A + A2)[changed,None]`. -/
def updateMean {K D : Nat} (g : Gmm K D) (M M2 : Fin K → Fin D → ℚ)
    (A A2 : Fin K → ℚ) (altered : Option (Fin K → Bool)) : Fin K → Fin D → ℚ :=
  fun k d =>
    if updateChanged altered k then (M k d + M2 k d) / (A k + A2 k) else g.mean k d

/-- The covariance assignment of `_update`, including the minimum
covariance regularization `w_eff = w**2 * ((N+N2)/K + 1)` used when
`w > 0`. -/
def updateCovar {K D : Nat} (g : Gmm K D) (C C2 : Fin K → Fin D → Fin D → ℚ)
    (A A2 : Fin K → ℚ) (N N2 w : ℚ) (altered : Option (Fin K → Bool)) :
    Fin K → Fin D → Fin D → ℚ :=
  fun k a b =>
    if updateChanged altered k then
      if 0 < w then
        (C k a b + C2 k a b + (w ^ 2 * ((N + N2) / (K : ℚ) + 1)) *
            (if a = b then 1 else 0)) / (A k + A2 k + 1)
      else (C k a b + C2 k a b) / (A k + A2 k)
    else g.covar k a b

/-- Model of `_update`: the atomic parameter update combining observed and
imputed sufficient statistics.  (The background-amplitude re-estimation
at the end of `_update` acts on the separate `Background` object and is
orthogonal to the mixture parameters.) -/
def updateGmm {K D : Nat} (g : Gmm K D) (A : Fin K → ℚ) (M : Fin K → Fin D → ℚ)
    (C : Fin K → Fin D → Fin D → ℚ) (N : ℚ) (A2 : Fin K → ℚ)
    (M2 : Fin K → Fin D → ℚ) (C2 : Fin K → Fin D → Fin D → ℚ) (N2 w : ℚ)
    (altered : Option (Fin K → Bool)) : Gmm K D :=
  { amp := updateAmp g.amp A A2 N N2 altered
    mean := updateMean g M M2 A A2 altered
    covar := updateCovar g C C2 A A2 N N2 w altered }

/-- C4 counterexample:  At a concrete input (K = 2, D = 1,
component 1 has an empty neighborhood, its previous mean is 5), the
M-step statistics are identically zero without an error — but the
subsequent `_update` does NOT leave the component's mean unchanged: it
recomputes it as `(M+M2)/(A+A2) = 0/0`, which is NaN in the
floating-point source and the division-by-zero junk value 0 in this
exact-arithmetic embedding; under neither semantics does it equal the
previous mean 5. -/
theorem msums_empty_update_changes_mean :
    msums (K := 2) (D := 1) ⟨![1/2, 1/2], ![![3], ![5]], ![![![1]], ![![1]]]⟩
        1 [] [] none (fun _ => 1) (fun _ _ => 0) =
      (0, fun _ => 0, fun _ _ => 0) ∧
    (updateGmm ⟨![1/2, 1/2], ![![3], ![5]], ![![![1]], ![![1]]]⟩
        ![4, 0] ![![8], ![0]] ![![![2]], ![![0]]] 4
        ![0, 0] ![![0], ![0]] ![![![0]], ![![0]]] 0 0 none).mean 1 0 ≠
      (⟨![1/2, 1/2], ![![3], ![5]], ![![![1]], ![![1]]]⟩ : Gmm 2 1).mean 1 0 := by
  constructor
  · simp [msums]
  · simp only [updateGmm, updateMean, updateChanged]
    norm_num

/-- C4 amended:  For every component whose neighborhood is empty
in an iteration, the M-step produces sufficient statistics (A, M, C)
that are identically zero without raising an error; the subsequent
`_update`, however, recomputes that component's mean and covariance by
dividing the zero statistics by the zero effective count (NaN in the
floating-point source, the junk value 0 here), rather than leaving them
unchanged. -/
theorem msums_empty_zero_and_update_junk {K D : Nat} (g : Gmm K D) (k : Fin K)
    (Tinv : Option (Nat → Fin D → Fin D → ℚ)) (S : Nat → ℚ)
    (data : Nat → Fin D → ℚ) (A A2 : Fin K → ℚ) (M M2 : Fin K → Fin D → ℚ)
    (C C2 : Fin K → Fin D → Fin D → ℚ) (N N2 : ℚ)
    (hA : A k = 0) (hA2 : A2 k = 0)
    (hM : ∀ d, M k d = 0) (hM2 : ∀ d, M2 k d = 0)
    (hC : ∀ a b, C k a b = 0) (hC2 : ∀ a b, C2 k a b = 0) :
    msums g k [] [] Tinv S data = (0, fun _ => 0, fun _ _ => 0) ∧
      (∀ d, (updateGmm g A M C N A2 M2 C2 N2 0 none).mean k d = 0) ∧
      (∀ a b, (updateGmm g A M C N A2 M2 C2 N2 0 none).covar k a b = 0) := by
  refine ⟨by simp [msums], ?_, ?_⟩
  · intro d
    simp [updateGmm, updateMean, updateChanged, hA, hA2, hM d, hM2 d]
  · intro a b
    simp [updateGmm, updateCovar, updateChanged, hA, hA2, hC a b, hC2 a b]

/-- Witness for the amended C4 at the counterexample's concrete input. -/
theorem msums_empty_zero_and_update_junk_witness :
    msums (K := 2) (D := 1) ⟨![1/2, 1/2], ![![3], ![5]], ![![![1]], ![![1]]]⟩
        1 [] [] none (fun _ => 1) (fun _ _ => 0) =
      (0, fun _ => 0, fun _ _ => 0) ∧
    (∀ d, (updateGmm (K := 2) (D := 1) ⟨![1/2, 1/2], ![![3], ![5]], ![![![1]], ![![1]]]⟩
        ![4, 0] ![![8], ![0]] ![![![2]], ![![0]]] 4
        ![0, 0] ![![0], ![0]] ![![![0]], ![![0]]] 0 0 none).mean 1 d = 0) ∧
    (∀ a b, (updateGmm (K := 2) (D := 1) ⟨![1/2, 1/2], ![![3], ![5]], ![![![1]], ![![1]]]⟩
        ![4, 0] ![![8], ![0]] ![![![2]], ![![0]]] 4
        ![0, 0] ![![0], ![0]] ![![![0]], ![![0]]] 0 0 none).covar 1 a b = 0) :=
  msums_empty_zero_and_update_junk _ 1 none _ _ _ _ _ _ _ _ _ _
    (by norm_num) (by norm_num)
    (by intro d; fin_cases d <;> norm_num)
    (by intro d; fin_cases d <;> norm_num)
    (by intro a b; fin_cases a <;> fin_cases b <;> norm_num)
    (by intro a b; fin_cases a <;> fin_cases b <;> norm_num)

/-- The per-component neighborhood array `U` (`None` = all samples). -/
abbrev UF (K : Nat) := Fin K → Option (List Nat)

/-- The abstract `_EMstep`: one E-step / M-step / optional-imputation /
update round.  It consumes the current parameters, the neighborhoods and
the iteration number and yields the updated parameters, the updated
neighborhoods and the iteration's observed mean log-likelihood
`log_L_`.  Its internals (`_Estep`, `_Mstep`, `_I`, `_update`) are
embedded separately; the driver `_EM` only sequences it. -/
abbrev EMStepFn (K D : Nat) := Gmm K D → UF K → Nat → Gmm K D × UF K × ℚ

/-- The squared mean displacement of component `k` since the backup, in
the backup covariance metric: `_EM`'s
`np.einsum('...i,...ij,...j', gmm.mean - gmm_.mean,
np.linalg.inv(gmm_.covar), gmm.mean - gmm_.mean)`. -/
def emShift2 {K D : Nat} (g gB : Gmm K D) (k : Fin K) : ℚ :=
  quadFormQ (invQ (gB.covar k)) (fun d => g.mean k d - gB.mean k d)

/-- The moved list `np.flatnonzero(shift2 > shift_cutoff)`. -/
def emMoved {K D : Nat} (g gB : Gmm K D) (shiftCutoff : ℚ) : List (Fin K) :=
  (List.finRange K).filter (fun k => shiftCutoff < emShift2 g gB k)

/-- The loop state of `_EM`: current parameters `gmm`, the backup `gmm_`
taken at the end of the previous iteration, the previous iteration's
log-likelihood `log_L`, the neighborhoods `U` and the iteration counter
`it`. -/
structure EMState (K D : Nat) where
  gmm : Gmm K D
  gmmB : Gmm K D
  logL : ℚ
  U : UF K
  it : Nat
deriving DecidableEq

/-- What `fit` receives back from `_EM`: the final log-likelihood, the
final (in-place mutated) parameters and neighborhoods, plus the number
of `_EMstep` invocations the loop performed. -/
structure EMResult (K D : Nat) where
  logL : ℚ
  gmm : Gmm K D
  U : UF K
  steps : Nat
deriving DecidableEq

/-- One traversal of the body of `_EM`'s `while it < maxiter` loop:
run `_EMstep`, compute the moved components, then either
(a) revert to the backup and break when the log-likelihood regressed by
more than `tol` (possible only after the first iteration),
(b) break as converged when within `tol` and no component moved, or
(c) continue: null the neighborhoods of all moved components (only when
a truncation cutoff is configured), adopt `log_L_`, take a fresh backup,
and advance `it`.  `Sum.inr` carries the `(log_L, gmm, U)` a break
leaves behind; the external chi-square quantile `shift_cutoff` is an
oracle input. -/
def emBody {K D : Nat} (step : EMStepFn K D) (shiftCutoff tol : ℚ)
    (cutoffOn : Bool) (s : EMState K D) :
    EMState K D ⊕ (ℚ × Gmm K D × UF K) :=
  let r := step s.gmm s.U s.it
  let g := r.1
  let U1 := r.2.1
  let logL' := r.2.2
  let moved := emMoved g s.gmmB shiftCutoff
  let cont : EMState K D ⊕ (ℚ × Gmm K D × UF K) :=
    let U2 := if cutoffOn then fun k => if k ∈ moved then none else U1 k else U1
    Sum.inl ⟨g, g, logL', U2, s.it + 1⟩
  if 0 < s.it ∧ logL' < s.logL + tol then
    if logL' < s.logL - tol then Sum.inr (s.logL, s.gmmB, U1)
    else if moved = [] then Sum.inr (logL', g, U1)
    else cont
  else cont

/-- Model of `_EM`'s iteration loop, with the remaining iteration budget
`maxiter - it` as the structural fuel: fuel 0 is exactly `it = maxiter`,
where the loop falls out of `while it < maxiter` and returns whatever
state it reached. -/
def emRun {K D : Nat} (step : EMStepFn K D) (shiftCutoff tol : ℚ)
    (cutoffOn : Bool) : Nat → EMState K D → EMResult K D
  | 0, s => ⟨s.logL, s.gmm, s.U, 0⟩
  | fuel+1, s =>
    match emBody step shiftCutoff tol cutoffOn s with
    | Sum.inr r => ⟨r.1, r.2.1, r.2.2, 1⟩
    | Sum.inl s' =>
      let r := emRun step shiftCutoff tol cutoffOn fuel s'
      ⟨r.logL, r.gmm, r.U, r.steps + 1⟩

/-- Model of `_EM`: backup the initial parameters, then iterate the body at most
`maxiter = max(100, gmm.K)` times.  (The Python `log_L` variable is
unbound before the first iteration; since `maxiter ≥ 100 ≥ 1` and the
`it > 0` guard skips every read of it in iteration 0, the initial value
0 used here is never observed.) -/
def emDriver {K D : Nat} (step : EMStepFn K D) (shiftCutoff tol : ℚ)
    (cutoffOn : Bool) (g0 : Gmm K D) (U0 : UF K) : EMResult K D :=
  emRun step shiftCutoff tol cutoffOn (max 100 K) ⟨g0, g0, 0, U0, 0⟩

/-- C2: Regression rollback: whenever the log-likelihood produced by
`_EMstep` in an iteration after the first falls below the previous
iteration's log-likelihood minus the tolerance, the loop restores the
backed-up amplitudes, means and covariances in full (`gmm := gmm_`),
terminates immediately, and the driver returns the previous (restored)
log-likelihood `s.logL`, not the regressed one. -/
theorem em_regression_reverts {K D : Nat} (step : EMStepFn K D)
    (shiftCutoff tol : ℚ) (cutoffOn : Bool) (fuel : Nat) (s : EMState K D)
    (htol : 0 ≤ tol) (hit : 0 < s.it)
    (hreg : (step s.gmm s.U s.it).2.2 < s.logL - tol) :
    emRun step shiftCutoff tol cutoffOn (fuel+1) s =
      ⟨s.logL, s.gmmB, (step s.gmm s.U s.it).2.1, 1⟩ := by
  have h1 : (step s.gmm s.U s.it).2.2 < s.logL + tol := by linarith
  simp [emRun, emBody, hit, h1, hreg]

/-- Witness for C2: one-component model, constant `_EMstep` oracle whose
log-likelihood 0 regresses from the previous value 10 by more than the
tolerance 1/1000; the run reverts to the backup and returns 10. -/
theorem em_regression_reverts_witness :
    emRun (K := 1) (D := 1) (fun g U _ => (g, U, 0)) 1 (1/1000) true 1
        ⟨⟨![1], ![![0]], ![![![1]]]⟩, ⟨![1], ![![2]], ![![![3]]]⟩, 10,
          fun _ => none, 1⟩ =
      ⟨10, ⟨![1], ![![2]], ![![![3]]]⟩, fun _ => none, 1⟩ :=
  em_regression_reverts (fun g U _ => (g, U, 0)) 1 (1/1000) true 0
    ⟨⟨![1], ![![0]], ![![![1]]]⟩, ⟨![1], ![![2]], ![![![3]]]⟩, 10,
      fun _ => none, 1⟩
    (by norm_num) (by norm_num) (by norm_num)

/-- C7: With a truncation cutoff configured, an iteration of the EM
driver never lets a component keep its neighborhood across a beyond-
half-sigma mean displacement: if the loop body continues, every moved
component's neighborhood is set to null (forcing recomputation in the
next E-step); if it breaks, either no component moved (convergence
break) or the parameters are restored to the backup, undoing the
displacement (regression break). -/
theorem em_moved_neighborhoods_reset {K D : Nat} (step : EMStepFn K D)
    (shiftCutoff tol : ℚ) (s : EMState K D) :
    match emBody step shiftCutoff tol true s with
    | Sum.inl s' =>
        ∀ k ∈ emMoved (step s.gmm s.U s.it).1 s.gmmB shiftCutoff, s'.U k = none
    | Sum.inr r =>
        emMoved (step s.gmm s.U s.it).1 s.gmmB shiftCutoff = [] ∨
          r.2.1 = s.gmmB := by
  by_cases h1 : 0 < s.it ∧ (step s.gmm s.U s.it).2.2 < s.logL + tol
  · by_cases h2 : (step s.gmm s.U s.it).2.2 < s.logL - tol
    · simp only [emBody, if_pos h1, if_pos h2]
      exact Or.inr trivial
    · by_cases h3 : emMoved (step s.gmm s.U s.it).1 s.gmmB shiftCutoff = []
      · simp only [emBody, if_pos h1, if_neg h2, if_pos h3]
        exact Or.inl h3
      · simp only [emBody, if_pos h1, if_neg h2, if_neg h3, if_true]
        intro k hk
        simp [hk]
  · simp only [emBody, if_neg h1, if_true]
    intro k hk
    simp [hk]

/-- Helper: the loop of `_EM` invokes `_EMstep` at most `fuel` times. -/
theorem emRun_steps_le {K D : Nat} (step : EMStepFn K D) (c t : ℚ) (b : Bool) :
    ∀ (fuel : Nat) (s : EMState K D), (emRun step c t b fuel s).steps ≤ fuel := by
  intro fuel
  induction fuel with
  | zero => intro s; simp [emRun]
  | succ n ih =>
    intro s
    simp only [emRun]
    cases h : emBody step c t b s with
    | inr r => simp
    | inl s' => simpa using ih s'

/-- C9: The EM driver's loop executes at most `max(100, K)`
`_EMstep` iterations, and reaching the cap is not an error: with the
budget exhausted the loop simply returns the log-likelihood, parameters
and neighborhoods of whatever state it reached. -/
theorem em_iteration_cap {K D : Nat} (step : EMStepFn K D)
    (shiftCutoff tol : ℚ) (cutoffOn : Bool) (g0 : Gmm K D) (U0 : UF K) :
    (emDriver step shiftCutoff tol cutoffOn g0 U0).steps ≤ max 100 K ∧
      ∀ s : EMState K D, emRun step shiftCutoff tol cutoffOn 0 s =
        ⟨s.logL, s.gmm, s.U, 0⟩ :=
  ⟨emRun_steps_le step shiftCutoff tol cutoffOn (max 100 K) _, fun _ => rfl⟩

/-- The errors `fit`/`cv_fit` can raise before iterating: the
`RuntimeError` for per-sample noise without an imputation noise callback
when a selection callback is present, and the `RuntimeError` of `cv_fit`
for a non-null init callback. -/
inductive FitError where
  | covarInconsistent
  | cvInitCallback
deriving DecidableEq

/-- Whether an `Except` result is a normal return. -/
def fitOk {ε α : Type _} : Except ε α → Bool
  | .ok _ => true
  | .error _ => false

/-- The split-and-merge loop of `fit`
(`while split_n_merge and gmm.K >= 3`): each pass backs up the model,
runs one find/update/partial-EM/full-EM round (abstracted into the
`pass` oracle), reverts to the backup and stops when the likelihood did
not improve, and otherwise adopts the revised model and decrements the
retry budget. -/
def snmLoop {K D : Nat} (pass : Gmm K D → UF K → Gmm K D × UF K × ℚ) :
    Nat → Gmm K D → UF K → ℚ → ℚ × Gmm K D × UF K
  | 0, g, U, logL => (logL, g, U)
  | n+1, g, U, logL =>
    if 3 ≤ K then
      let r := pass g U
      if r.2.2 ≤ logL then (logL, g, U)
      else snmLoop pass n r.1 r.2.1 r.2.2
    else (logL, g, U)

/-- Model of `fit`: run the optional init callback, reject inconsistent noise
callbacks, disable the cutoff when a background model is present, run
`_EM`, then run the split-and-merge loop.  The booleans record which of
`covar`, `sel_callback`, `covar_callback` and `background` are
non-null. -/
def fitRun {K D : Nat} (covarSet selSet covarCbSet backgroundOn : Bool)
    (initCb : Option (Gmm K D → Gmm K D)) (step : EMStepFn K D)
    (shiftCutoff tol : ℚ) (cutoffOn : Bool)
    (pass : Gmm K D → UF K → Gmm K D × UF K × ℚ) (snm : Nat)
    (g : Gmm K D) (U0 : UF K) : Except FitError (ℚ × Gmm K D × UF K) :=
  let g1 := match initCb with
    | some f => f g
    | none => g
  if covarSet ∧ selSet ∧ ¬ covarCbSet then .error .covarInconsistent
  else
    let co := if backgroundOn then false else cutoffOn
    let r := emDriver step shiftCutoff tol co g1 U0
    .ok (snmLoop pass snm r.gmm r.U r.logL)

/-- With fewer than 3 components the split-and-merge loop of `fit`
never runs a pass. -/
theorem snmLoop_lt_three {K D : Nat} (pass : Gmm K D → UF K → Gmm K D × UF K × ℚ)
    (hK : K < 3) :
    ∀ (n : Nat) (g : Gmm K D) (U : UF K) (logL : ℚ),
      snmLoop pass n g U logL = (logL, g, U) := by
  intro n g U logL
  cases n with
  | zero => rfl
  | succ m => simp [snmLoop, Nat.not_le.mpr hK]

/-- C5 counterexample:  Requesting split-and-merge with K = 2
components is NOT a fatal configuration error: `fit` returns normally
(the `while split_n_merge and gmm.K >= 3` loop is silently skipped), it
raises nothing to the caller. -/
theorem fit_snm_two_components_no_error :
    fitOk (fitRun (K := 2) (D := 1) false false false false none
        (fun g U _ => (g, U, 0)) 1 (1/1000) false
        (fun g U => (g, U, 0)) 1
        ⟨![1/2, 1/2], ![![0], ![1]], ![![![1]], ![![1]]]⟩
        (fun _ => none)) = true := by
  simp [fitRun, fitOk]

/-- C5 amended:  Requesting split-and-merge with fewer than 3
mixture components is silently ignored, not an error: `fit` raises
nothing, and its result is identical to a fit with split-and-merge
disabled (`split_n_merge = 0`). -/
theorem fit_snm_lt_three_ignored {K D : Nat}
    (covarSet selSet covarCbSet backgroundOn : Bool)
    (initCb : Option (Gmm K D → Gmm K D)) (step : EMStepFn K D)
    (shiftCutoff tol : ℚ) (cutoffOn : Bool)
    (pass : Gmm K D → UF K → Gmm K D × UF K × ℚ) (snm : Nat)
    (g : Gmm K D) (U0 : UF K) (hK : K < 3) :
    fitRun covarSet selSet covarCbSet backgroundOn initCb step shiftCutoff
        tol cutoffOn pass snm g U0 =
      fitRun covarSet selSet covarCbSet backgroundOn initCb step shiftCutoff
        tol cutoffOn pass 0 g U0 := by
  simp only [fitRun]
  split
  · rfl
  · rw [snmLoop_lt_three pass hK]
    rfl

/-- Witness for the amended C5 at K = 2 with a nonzero split-and-merge
budget. -/
theorem fit_snm_lt_three_ignored_witness :
    fitRun (K := 2) (D := 1) false false false false none
        (fun g U _ => (g, U, 0)) 1 (1/1000) false
        (fun g U => (g, U, 0)) 1
        ⟨![1/2, 1/2], ![![0], ![1]], ![![![1]], ![![1]]]⟩ (fun _ => none) =
      fitRun false false false false none
        (fun g U _ => (g, U, 0)) 1 (1/1000) false
        (fun g U => (g, U, 0)) 0
        ⟨![1/2, 1/2], ![![0], ![1]], ![![![1]], ![![1]]]⟩ (fun _ => none) :=
  fit_snm_lt_three_ignored false false false false none
    (fun g U _ => (g, U, 0)) 1 (1/1000) false (fun g U => (g, U, 0)) 1
    ⟨![1/2, 1/2], ![![0], ![1]], ![![![1]], ![![1]]]⟩ (fun _ => none)
    (by norm_num)

/-- Sorted insertion, for modelling `np.union1d`'s sorted output. -/
def insertSortedNat (x : Nat) : List Nat → List Nat
  | [] => [x]
  | y :: ys => if x ≤ y then x :: y :: ys else y :: insertSortedNat x ys

/-- Insertion sort on index lists. -/
def sortNat (l : List Nat) : List Nat := l.foldr insertSortedNat []

/-- Model of `np.union1d`: the sorted union of two index arrays. -/
def union1d (xs ys : List Nat) : List Nat := sortNat ((xs ++ ys).eraseDups)

/-- The external numerical kernels `_update_snm` calls on the split
component's covariance: `np.sqrt(radius2[0])` (square root of the
leading singular value), `rotation[0]` (the leading right-singular
vector, i.e. the leading eigenvector of the symmetric covariance) from
`np.linalg.svd`, and `np.linalg.det(...)**(1./D)` (the D-th root of the
determinant). -/
structure SnmKernels (D : Nat) where
  sqrtEv : ℚ
  evec : Fin D → ℚ
  detRoot : ℚ

/-- Model of `_update_snm`: merge components `a 0` and `a 1` into slot `a 0`
(pooled Bovy eq. 39 moments, or plain adoption of the second component's
parameters in a cleanup merge), then split component `a 2` into slots
`a 1` and `a 2`: halve its amplitude into the two children, displace the
children's means in opposite directions by
`dl = np.sqrt(radius2[0]) * rotation[0] / 4`, set both children's
covariance to the isotropic matrix `det(covar)**(1./D) * np.eye(D)`, and
let both children share the parent's neighborhood.  (A `None`
neighborhood cannot reach this function: `_findSNMComponents` applies
`match1d` to every pair first, which requires index arrays.) -/
def updateSnm {K D : Nat} (g : Gmm K D) (a : Fin 3 → Fin K) (N : ℚ)
    (cleanup : Bool) (U : UF K) (ker : SnmKernels D) : Gmm K D × UF K :=
  let A := fun k => g.amp k * N
  let amp1 := Function.update g.amp (a 0) (g.amp (a 0) + g.amp (a 1))
  let mean1 :=
    if cleanup then Function.update g.mean (a 0) (g.mean (a 1))
    else Function.update g.mean (a 0)
      (fun d => (g.mean (a 0) d * A (a 0) + g.mean (a 1) d * A (a 1)) /
        (A (a 0) + A (a 1)))
  let covar1 :=
    if cleanup then Function.update g.covar (a 0) (g.covar (a 1))
    else Function.update g.covar (a 0)
      (fun i j => (g.covar (a 0) i j * A (a 0) + g.covar (a 1) i j * A (a 1)) /
        (A (a 0) + A (a 1)))
  let U1 :=
    if cleanup then Function.update U (a 0) (U (a 1))
    else Function.update U (a 0)
      (match U (a 0), U (a 1) with
       | some x, some y => some (union1d x y)
       | _, _ => none)
  let half := amp1 (a 2) / 2
  let amp2 := Function.update (Function.update amp1 (a 1) half) (a 2) half
  let dl := fun d => ker.sqrtEv * ker.evec d / 4
  let mean2 := Function.update mean1 (a 1) (fun d => mean1 (a 2) d - dl d)
  let mean3 := Function.update mean2 (a 2) (fun d => mean2 (a 2) d + dl d)
  let iso := fun (i j : Fin D) => ker.detRoot * (if i = j then 1 else 0)
  let covar2 := Function.update (Function.update covar1 (a 1) iso) (a 2) iso
  let U2 := Function.update U1 (a 1) (U1 (a 2))
  (⟨amp2, mean3, covar2⟩, U2)

/-- The determinant of the isotropic matrix `r * np.eye(n)` is `r^n`. -/
theorem detQ_iso {n : Nat} (r : ℚ) :
    detQ (fun i j : Fin n => r * (if i = j then 1 else 0)) = r ^ n := by
  induction n with
  | zero => simp [detQ]
  | succ m ih =>
    rw [detQ, Finset.sum_eq_single 0]
    · have hminor : minorQ (fun i j : Fin (m+1) => r * (if i = j then 1 else 0))
          0 0 = fun i j : Fin m => r * (if i = j then 1 else 0) := by
        funext i j
        simp [minorQ, Fin.succAbove_right_inj]
      rw [hminor, ih]
      simp [pow_succ]
      ring
    · intro j _ hj
      simp [(Ne.symm hj)]
    · simp

/-- The 2x2 Laplace expansion in closed form, for evaluating `detQ` on
concrete covariances. -/
theorem detQ_two (A : Fin 2 → Fin 2 → ℚ) :
    detQ A = A 0 0 * A 1 1 - A 0 1 * A 1 0 := by
  have e1 : ((0 : Fin 2).succAbove (0 : Fin 1)) = 1 := by decide
  have e2 : ((1 : Fin 2).succAbove (0 : Fin 1)) = 0 := by decide
  simp [detQ, minorQ, Fin.sum_univ_two, Fin.sum_univ_one, e1, e2]
  ring

/-- The concrete mixture for the C6 analysis: K = 3, D = 2, split
component 2 has covariance diag(4, 1). -/
def snmExGmm : Gmm 3 2 :=
  ⟨![1/4, 1/4, 1/2],
    ![![0, 0], ![2, 0], ![1, 1]],
    ![![![1, 0], ![0, 1]], ![![1, 0], ![0, 1]], ![![4, 0], ![0, 1]]]⟩

/-- The true numerical kernel values for `snmExGmm`'s component 2:
leading singular value 4 (sqrt 2... its square root is 2), leading
eigenvector (1,0), determinant 4 with D-th root 4^(1/2) = 2. -/
def snmExKer : SnmKernels 2 := ⟨2, ![1, 0], 2⟩

/-- C6 counterexample:  At the concrete split of `snmExGmm`'s
component 2 (covariance diag(4,1), determinant 4, D = 2), the children's
covariance is the isotropic `2 * eye(2)` whose determinant is 4 — equal
to the ORIGINAL determinant, not to its D-th root 2 as the claim states
(`snmExKer.detRoot = 2` is the D-th root: `2^2 = 4 = det`). -/
theorem update_snm_child_det_not_droot :
    detQ ((updateSnm snmExGmm ![0, 1, 2] 8 false (fun _ => some [0])
        snmExKer).1.covar 2) = 4 ∧
      snmExKer.detRoot ^ 2 = detQ (snmExGmm.covar 2) ∧
      detQ ((updateSnm snmExGmm ![0, 1, 2] 8 false (fun _ => some [0])
        snmExKer).1.covar 2) ≠ snmExKer.detRoot := by
  have hcov : (updateSnm snmExGmm ![0, 1, 2] 8 false (fun _ => some [0])
      snmExKer).1.covar 2 =
      fun i j : Fin 2 => snmExKer.detRoot * (if i = j then 1 else 0) := by
    simp [updateSnm]
  refine ⟨?_, ?_, ?_⟩
  · rw [hcov, detQ_iso]
    norm_num [snmExKer]
  · norm_num [snmExKer, snmExGmm, detQ_two]
  · rw [hcov, detQ_iso]
    norm_num [snmExKer]

/-- C6 amended:  The split halves the chosen component's amplitude
into the two children, displaces the children's means in opposite
directions along the leading eigenvector of the original covariance
scaled by a quarter of its standard deviation, and sets both children's
covariance to an isotropic matrix whose DIAGONAL ENTRIES equal the D-th
root of the original covariance's determinant — so the children's
determinant equals the original determinant itself (not its D-th
root). -/
theorem update_snm_split_correct {K D : Nat} (g : Gmm K D) (a : Fin 3 → Fin K)
    (N : ℚ) (cleanup : Bool) (U : UF K) (ker : SnmKernels D)
    (h20 : a 2 ≠ a 0) (h21 : a 2 ≠ a 1)
    (hroot : ker.detRoot ^ D = detQ (g.covar (a 2))) :
    ((updateSnm g a N cleanup U ker).1.amp (a 1) = g.amp (a 2) / 2 ∧
      (updateSnm g a N cleanup U ker).1.amp (a 2) = g.amp (a 2) / 2) ∧
    (∀ d, (updateSnm g a N cleanup U ker).1.mean (a 1) d =
        g.mean (a 2) d - ker.sqrtEv * ker.evec d / 4 ∧
      (updateSnm g a N cleanup U ker).1.mean (a 2) d =
        g.mean (a 2) d + ker.sqrtEv * ker.evec d / 4) ∧
    (∀ i j, (updateSnm g a N cleanup U ker).1.covar (a 1) i j =
        ker.detRoot * (if i = j then 1 else 0) ∧
      (updateSnm g a N cleanup U ker).1.covar (a 2) i j =
        ker.detRoot * (if i = j then 1 else 0)) ∧
    detQ ((updateSnm g a N cleanup U ker).1.covar (a 2)) =
      detQ (g.covar (a 2)) := by
  refine ⟨⟨?_, ?_⟩, ?_, ?_, ?_⟩
  · by_cases h12 : a 1 = a 2 <;>
      simp [updateSnm, Function.update_apply, h12, h20, h21, Ne.symm h21]
  · simp [updateSnm, Function.update_apply, h20]
  · intro d
    by_cases hc : cleanup <;> constructor <;>
      simp [updateSnm, Function.update_apply, hc, h20, h21, Ne.symm h21]
  · intro i j
    constructor <;> by_cases h12 : a 1 = a 2 <;>
      simp [updateSnm, Function.update_apply, h12]
  · have hcov : (updateSnm g a N cleanup U ker).1.covar (a 2) =
        fun i j : Fin D => ker.detRoot * (if i = j then 1 else 0) := by
      simp [updateSnm]
    rw [hcov, detQ_iso, hroot]

/-- Witness for the amended C6 at the concrete `snmExGmm` input. -/
theorem update_snm_split_correct_witness :
    (((updateSnm snmExGmm ![0, 1, 2] 8 false (fun _ => some [0])
        snmExKer).1.amp 1 = snmExGmm.amp 2 / 2 ∧
      (updateSnm snmExGmm ![0, 1, 2] 8 false (fun _ => some [0])
        snmExKer).1.amp 2 = snmExGmm.amp 2 / 2) ∧
    (∀ d, (updateSnm snmExGmm ![0, 1, 2] 8 false (fun _ => some [0])
        snmExKer).1.mean 1 d =
        snmExGmm.mean 2 d - snmExKer.sqrtEv * snmExKer.evec d / 4 ∧
      (updateSnm snmExGmm ![0, 1, 2] 8 false (fun _ => some [0])
        snmExKer).1.mean 2 d =
        snmExGmm.mean 2 d + snmExKer.sqrtEv * snmExKer.evec d / 4) ∧
    (∀ i j, (updateSnm snmExGmm ![0, 1, 2] 8 false (fun _ => some [0])
        snmExKer).1.covar 1 i j =
        snmExKer.detRoot * (if i = j then 1 else 0) ∧
      (updateSnm snmExGmm ![0, 1, 2] 8 false (fun _ => some [0])
        snmExKer).1.covar 2 i j =
        snmExKer.detRoot * (if i = j then 1 else 0)) ∧
    detQ ((updateSnm snmExGmm ![0, 1, 2] 8 false (fun _ => some [0])
        snmExKer).1.covar 2) = detQ (snmExGmm.covar 2)) :=
  update_snm_split_correct snmExGmm ![0, 1, 2] 8 false (fun _ => some [0])
    snmExKer (by decide) (by decide)
    (by norm_num [snmExKer, snmExGmm, detQ_two])

/-- A filter that loses no elements accepts every element. -/
theorem filter_full {α : Type _} (p : α → Bool) :
    ∀ l : List α, (l.filter p).length = l.length → ∀ x ∈ l, p x := by
  intro l
  induction l with
  | nil => simp
  | cons a t ih =>
    intro h x hx
    by_cases hp : p a
    · rw [List.filter_cons_of_pos hp] at h
      simp only [List.length_cons] at h
      rcases List.mem_cons.mp hx with rfl | hx'
      · exact hp
      · exact ih (by omega) x hx'
    · exfalso
      have hle := List.length_filter_le p t
      rw [List.filter_cons_of_neg hp] at h
      simp only [List.length_cons] at h
      omega

/-- The batch of `size` component-and-Gaussian samples `GMM.draw`
generates before the selection test (the `rng.choice` over amplitudes
plus the per-component `rng.multivariate_normal` draws): modelled as
`size` consecutive values of the external sampler stream `rngS`,
consumed from position `pos`. -/
def drawBatch {α : Type _} (rngS : Nat → α) (pos n : Nat) : List α :=
  (List.range n).map (fun i => rngS (pos + i))

/-- Model of `GMM.draw` with a selection callback: draw a batch, apply
`sel_callback` (inverted when `invert_callback` is set), and if
`size_in != size` recurse only on the shortfall `size - size_in`,
concatenating `samples[sel_]` with the redraw; when the whole batch
passes, the batch is returned as-is.  The Python recursion carries no
bound; `fuel` bounds the recursion depth so the embedding is total,
with `none` marking depth exhaustion. -/
def drawRec {α : Type _} (sel : α → Bool) (invert : Bool) (rngS : Nat → α) :
    Nat → Nat → Nat → Option (List α)
  | 0, _, _ => none
  | fuel+1, pos, size =>
    let samples := drawBatch rngS pos size
    let keep := samples.filter (fun x => sel x != invert)
    if keep.length = size then some samples
    else
      match drawRec sel invert rngS fuel (pos + size) (size - keep.length) with
      | none => none
      | some more => some (keep ++ more)

/-- C8: For every requested size and every selection callback with
nonzero acceptance (every nonempty batch contains at least one accepted
sample), `GMM.draw` terminates — recursion depth `size + 1` always
suffices, because each round recurses only on the shortfall, which
shrinks by at least one — and returns exactly `size` points, every one
of which passes the selection (fails it when the inversion flag is
set). -/
theorem draw_terminates_exact_selected {α : Type _} (sel : α → Bool)
    (invert : Bool) (rngS : Nat → α)
    (hacc : ∀ pos n, 0 < n →
      0 < ((drawBatch rngS pos n).filter (fun x => sel x != invert)).length) :
    ∀ fuel pos size, size < fuel →
      ∃ l, drawRec sel invert rngS fuel pos size = some l ∧
        l.length = size ∧ ∀ x ∈ l, (sel x != invert) = true := by
  intro fuel
  induction fuel with
  | zero => intro pos size h; omega
  | succ n ih =>
    intro pos size h
    have hbatch : (drawBatch rngS pos size).length = size := by
      simp [drawBatch]
    by_cases hfull :
        ((drawBatch rngS pos size).filter (fun x => sel x != invert)).length = size
    · refine ⟨drawBatch rngS pos size, ?_, hbatch, ?_⟩
      · simp [drawRec, hfull]
      · intro x hx
        exact filter_full (fun x => sel x != invert) (drawBatch rngS pos size)
          (by rw [hfull, hbatch]) x hx
    · have hsz : 0 < size := by
        rcases Nat.eq_zero_or_pos size with rfl | hpos
        · exact absurd (by simp [drawBatch]) hfull
        · exact hpos
      have hkeep := hacc pos size hsz
      have hkle : ((drawBatch rngS pos size).filter
          (fun x => sel x != invert)).length ≤ size := by
        calc ((drawBatch rngS pos size).filter (fun x => sel x != invert)).length
            ≤ (drawBatch rngS pos size).length :=
              List.length_filter_le _ _
          _ = size := hbatch
      obtain ⟨more, hmore, hlen, hsel⟩ := ih (pos + size)
        (size - ((drawBatch rngS pos size).filter
          (fun x => sel x != invert)).length) (by omega)
      refine ⟨(drawBatch rngS pos size).filter (fun x => sel x != invert) ++ more,
        ?_, ?_, ?_⟩
      · simp only [drawRec, if_neg hfull]
        rw [hmore]
      · rw [List.length_append, hlen]
        omega
      · intro x hx
        rcases List.mem_append.mp hx with hx' | hx'
        · exact (List.mem_filter.mp hx').2
        · exact hsel x hx'

/-- Witness for C8: an always-accepting selection over a constant
sampler stream; depth 3 suffices for a request of 2 points. -/
theorem draw_terminates_exact_selected_witness :
    (∀ pos n, 0 < n →
      0 < (((drawBatch (fun _ => (0:ℚ)) pos n)).filter
        (fun x => (fun _ : ℚ => true) x != false)).length) ∧
    ∃ l, drawRec (fun _ : ℚ => true) false (fun _ => (0:ℚ)) 3 0 2 = some l ∧
      l.length = 2 ∧ ∀ x ∈ l, ((fun _ : ℚ => true) x != false) = true := by
  have hacc : ∀ pos n, 0 < n →
      0 < (((drawBatch (fun _ => (0:ℚ)) pos n)).filter
        (fun x => (fun _ : ℚ => true) x != false)).length := by
    intro pos n hn
    simpa [drawBatch] using hn
  exact ⟨hacc,
    draw_terminates_exact_selected (fun _ : ℚ => true) false (fun _ => (0:ℚ))
      hacc 3 0 2 (by omega)⟩

/-- One traversal of `cv_fit`'s fold loop.  The `fit` call on fold `i`'s
training split (which mutates the model and, when present, the
background amplitude; the rng state is reset before it) and the
held-out `gmm.logL` evaluation are oracles `fitFn`, `logLFn`.  After
appending the fold's held-out likelihoods, the caller's model and the
background amplitude are restored from the entry copies `g0`, `bg0`
("undo for consistency"). -/
def cvLoop {K D : Nat} (fitFn : Nat → Gmm K D × Option ℚ → Gmm K D × Option ℚ)
    (logLFn : Nat → Gmm K D → ℚ) (g0 : Gmm K D) (bg0 : Option ℚ) :
    List Nat → Gmm K D × Option ℚ × List ℚ → Gmm K D × Option ℚ × List ℚ
  | [], st => st
  | i :: rest, (g, bg, lcv) =>
    let r := fitFn i (g, bg)
    let li := logLFn i r.1
    cvLoop fitFn logLFn g0 bg0 rest (g0, bg0, lcv ++ [li])

/-- Model of `cv_fit`: reject a non-null init callback, copy the entry model (and
background amplitude), run the `L` folds, and return the held-out
likelihoods together with the final model and background state. -/
def cvFit {K D : Nat} (initCbSet : Bool)
    (fitFn : Nat → Gmm K D × Option ℚ → Gmm K D × Option ℚ)
    (logLFn : Nat → Gmm K D → ℚ) (L : Nat) (g : Gmm K D) (bg : Option ℚ) :
    Except FitError (List ℚ × Gmm K D × Option ℚ) :=
  if initCbSet then .error .cvInitCallback
  else
    let r := cvLoop fitFn logLFn g bg (List.range L) (g, bg, [])
    .ok (r.2.2, r.1, r.2.1)

/-- The fold loop keeps restoring the entry copies, so it ends on
them. -/
theorem cvLoop_restores {K D : Nat}
    (fitFn : Nat → Gmm K D × Option ℚ → Gmm K D × Option ℚ)
    (logLFn : Nat → Gmm K D → ℚ) (g0 : Gmm K D) (bg0 : Option ℚ) :
    ∀ (idxs : List Nat) (st : Gmm K D × Option ℚ × List ℚ),
      st.1 = g0 → st.2.1 = bg0 →
      (cvLoop fitFn logLFn g0 bg0 idxs st).1 = g0 ∧
        (cvLoop fitFn logLFn g0 bg0 idxs st).2.1 = bg0 := by
  intro idxs
  induction idxs with
  | nil => intro st h1 h2; exact ⟨h1, h2⟩
  | cons i rest ih =>
    intro st _ _
    obtain ⟨g, bg, lcv⟩ := st
    exact ih _ rfl rfl

/-- C10: Whenever `cv_fit` returns without raising, the caller's
model is unchanged: the final amplitude, mean and covariance arrays
equal their values at entry, and the background amplitude (when a
background was supplied) is restored to its entry value, even though
every fold mutates the model during fitting. -/
theorem cv_fit_restores_model {K D : Nat} (initCbSet : Bool)
    (fitFn : Nat → Gmm K D × Option ℚ → Gmm K D × Option ℚ)
    (logLFn : Nat → Gmm K D → ℚ) (L : Nat) (g : Gmm K D) (bg : Option ℚ)
    (r : List ℚ × Gmm K D × Option ℚ)
    (h : cvFit initCbSet fitFn logLFn L g bg = .ok r) :
    r.2.1 = g ∧ r.2.2 = bg := by
  by_cases hcb : initCbSet
  · simp [cvFit, hcb] at h
  · simp only [cvFit, hcb, if_false] at h
    obtain ⟨h1, h2⟩ := cvLoop_restores fitFn logLFn g bg (List.range L)
      (g, bg, []) rfl rfl
    cases h
    exact ⟨h1, h2⟩

/-- Witness for C10: a two-fold cross-validation whose fit oracle
overwrites the model and the background amplitude; the returned model
and background equal the entry values. -/
theorem cv_fit_restores_model_witness :
    cvFit (K := 1) (D := 1) false
        (fun _ _ => (⟨![1], ![![9]], ![![![9]]]⟩, some 1))
        (fun _ _ => 7) 2
        ⟨![1], ![![0]], ![![![1]]]⟩ (some (1/2)) =
      .ok ([7, 7], ⟨![1], ![![0]], ![![![1]]]⟩, some (1/2)) ∧
    (([7, 7], ⟨![1], ![![0]], ![![![1]]]⟩, some (1/2)) :
        List ℚ × Gmm 1 1 × Option ℚ).2.1 = ⟨![1], ![![0]], ![![![1]]]⟩ ∧
    (([7, 7], ⟨![1], ![![0]], ![![![1]]]⟩, some (1/2)) :
        List ℚ × Gmm 1 1 × Option ℚ).2.2 = some (1/2) := by
  have h : cvFit (K := 1) (D := 1) false
      (fun _ _ => (⟨![1], ![![9]], ![![![9]]]⟩, some 1))
      (fun _ _ => 7) 2
      ⟨![1], ![![0]], ![![![1]]]⟩ (some (1/2)) =
      .ok ([7, 7], ⟨![1], ![![0]], ![![![1]]]⟩, some (1/2)) := by
    have hr : List.range 2 = [0, 1] := rfl
    simp [cvFit, cvLoop, hr]
  exact ⟨h,
    cv_fit_restores_model false
      (fun _ _ => (⟨![1], ![![9]], ![![![9]]]⟩, some 1)) (fun _ _ => 7) 2
      ⟨![1], ![![0]], ![![![1]]]⟩ (some (1/2))
      ([7, 7], ⟨![1], ![![0]], ![![![1]]]⟩, some (1/2)) h⟩

end Pygmmis
